import Mathlib

/-!
Verification of the Prometheus exposition sink (src/sinks/prometheus.rs).

The development shallowly embeds the sink's data model and algorithms:

* the metric data model (Metric, MetricValue, MetricKind, StatisticKind);
* the registry, an indexmap IndexSet of MetricEntry values whose documented
  operations are modelled on lists (insert appends when absent, replace
  updates in place, take swap-removes, i.e. moves the last element into the
  removed slot and pops the tail);
* the text renderers encode_tags, encode_tags_with_extra,
  encode_metric_header and encode_metric_datum (numeric values are modelled
  with exact rationals, and data lines are kept as structured records holding
  exactly the fields the source formats into each pushed line);
* the per-request handler and the per-event merge loop of PrometheusSink::run,
  including the two expiry computations with their integer casts.

Helper code of the repository that lives outside the analysed file
(MetricEntry equality, Metric::to_absolute / add / reset, encode_namespace,
DistributionStatistic) is modelled from the specification, as marked in the
corresponding doc comments.
-/

namespace PrometheusSink

/-! ## Data model -/

/-- Statistic mode carried by a Distribution metric value. -/
inductive StatisticKind where
  | histogram
  | summary
deriving DecidableEq, Repr

/-- Update discipline of an incoming metric (MetricKind in the source). -/
inductive MetricKind where
  | incremental
  | absolute
deriving DecidableEq, Repr

/-- Metric payload (MetricValue in the source).  Rust f64 sample values are
modelled with exact rationals; u64/u32 counts with Nat (no claim in scope
depends on overflow of these counters). -/
inductive MetricValue where
  | counter (value : Rat)
  | gauge (value : Rat)
  | set (values : Finset String)
  | distribution (values : List Rat) (sample_rates : List Nat)
      (statistic : StatisticKind)
  | aggregatedHistogram (buckets : List Rat) (counts : List Nat)
      (count : Nat) (sum : Rat)
  | aggregatedSummary (quantiles : List Rat) (values : List Rat)
      (count : Nat) (sum : Rat)
deriving DecidableEq

/-- Metric record, with the fields of the source struct in order
(the chrono timestamp is modelled as an optional integer; no claim uses it). -/
structure Metric where
  name : String
  timestamp : Option Int
  tags : Option (List (String × String))
  kind : MetricKind
  value : MetricValue
deriving DecidableEq

/-- Discriminant of a MetricValue, as used by entry equality. -/
def MetricValue.discriminant : MetricValue → Nat
  | .counter _ => 0
  | .gauge _ => 1
  | .set _ => 2
  | .distribution _ _ _ => 3
  | .aggregatedHistogram _ _ _ _ => 4
  | .aggregatedSummary _ _ _ _ => 5

/-- Whether the value is Set-typed (MetricValue::is_set in the source tree). -/
def MetricValue.isSet : MetricValue → Bool
  | .set _ => true
  | _ => false

/-- Modelled from the spec: metric identity is the (name, sorted tag set)
pair; the spec fixes the value kind of an identity at its first observation,
so the value discriminant participates in entry equality, matching the
MetricEntry wrapper the registry stores. -/
def Metric.key (m : Metric) : String × Option (List (String × String)) × Nat :=
  (m.name, m.tags, m.value.discriminant)

/-- Equality of registry entries (MetricEntry equality, modelled from the
spec's notion of identity). -/
def entryEq (a b : Metric) : Bool :=
  decide (a.key = b.key)

/-- Modelled from the spec: Metric::to_absolute normalizes an incoming
Incremental update to its self-contained absolute form; only the update
discipline changes. -/
def Metric.toAbsolute (m : Metric) : Metric :=
  { m with kind := .absolute }

/-- Modelled from the spec: type-specific addition used to fold an
Incremental observation into the stored absolute value — counters and gauges
sum arithmetically, sets take the union of members, distributions append
samples.  Aggregated values are not expected as merge inputs (the spec calls
that a logic error); the model keeps the stored value unchanged there. -/
def Metric.add (m other : Metric) : Metric :=
  match m.value, other.value with
  | .counter v1, .counter v2 => { m with value := .counter (v1 + v2) }
  | .gauge v1, .gauge v2 => { m with value := .gauge (v1 + v2) }
  | .set s1, .set s2 => { m with value := .set (s1 ∪ s2) }
  | .distribution vs1 rs1 st1, .distribution vs2 rs2 _ =>
      { m with value := .distribution (vs1 ++ vs2) (rs1 ++ rs2) st1 }
  | _, _ => m

/-- Modelled from the spec: Metric::reset clears a Set's observed members
(the cardinality reset signal); other value kinds are left unchanged by the
model since the merge path only resets Set-typed entries. -/
def Metric.reset (m : Metric) : Metric :=
  match m.value with
  | .set _ => { m with value := .set ∅ }
  | _ => m

/-! ## Registry operations (indexmap IndexSet modelled on lists)

The registry is an IndexSet of entries.  Per the indexmap documentation:
insert appends at the end when no equal element is present and otherwise
keeps the old element and order; replace overwrites the equal element in
place, preserving its position; take is equivalent to swap_take, which
removes the element by swapping it with the last element and popping. -/

/-- Index of the first entry equal (as a registry entry) to the probe. -/
def find_index (probe : Metric) : List Metric → Option Nat
  | [] => none
  | e :: rest =>
      if entryEq e probe then some 0 else (find_index probe rest).map (· + 1)

/-- Swap-removal at an index: the last element is moved into the removed
slot and the tail is popped (Vec::swap_remove, used by IndexSet::take). -/
def swapRemoveAt (l : List Metric) (i : Nat) : List Metric :=
  match l.getLast? with
  | none => l
  | some z => (l.set i z).dropLast

/-- IndexSet::take — remove and return the entry equal to the probe, by
swap-removal. -/
def takeEntry (l : List Metric) (probe : Metric) : Option (Metric × List Metric) :=
  match find_index probe l with
  | some i =>
      match l[i]? with
      | some e => some (e, swapRemoveAt l i)
      | none => none
  | none => none

/-- IndexSet::insert — append at the end when no equal entry is present,
otherwise keep the set unchanged. -/
def insertEntry (l : List Metric) (m : Metric) : List Metric :=
  if l.any (fun e => entryEq e m) then l else l ++ [m]

/-- IndexSet::replace — overwrite the equal entry in place, preserving its
position; append at the end when absent. -/
def replaceEntry (l : List Metric) (m : Metric) : List Metric :=
  match find_index m l with
  | some i => l.set i m
  | none => l ++ [m]

/-! ## Tag rendering -/

/-- Lexicographic comparison of character lists by code point, the model of
the ordering Rust's sort applies to rendered tag strings (on ASCII data it
coincides with Rust's byte-wise String ordering). -/
def charsLe : List Char → List Char → Bool
  | [], _ => true
  | _ :: _, [] => false
  | a :: as, b :: bs =>
      if a.toNat < b.toNat then true
      else if b.toNat < a.toNat then false
      else charsLe as bs

/-- Lexicographic string order induced by charsLe. -/
def strLe (a b : String) : Prop :=
  charsLe a.data b.data = true

instance (a b : String) : Decidable (strLe a b) := by
  unfold strLe
  infer_instance

theorem charsLe_total : ∀ (x y : List Char),
    charsLe x y = true ∨ charsLe y x = true
  | [], _ => Or.inl rfl
  | _ :: _, [] => Or.inr rfl
  | a :: as, b :: bs => by
      simp only [charsLe]
      by_cases p1 : a.toNat < b.toNat
      · exact Or.inl (by rw [if_pos p1])
      · by_cases p2 : b.toNat < a.toNat
        · exact Or.inr (by rw [if_pos p2])
        · rcases charsLe_total as bs with h | h
          · refine Or.inl ?_
            rw [if_neg p1, if_neg p2]
            exact h
          · refine Or.inr ?_
            rw [if_neg p2, if_neg p1]
            exact h

theorem charsLe_trans : ∀ {x y z : List Char}, charsLe x y = true →
    charsLe y z = true → charsLe x z = true
  | [], _, _, _, _ => rfl
  | _ :: _, [], _, h1, _ => by simp [charsLe] at h1
  | _ :: _, _ :: _, [], _, h2 => by simp [charsLe] at h2
  | a :: as, b :: bs, c :: cs, h1, h2 => by
      simp only [charsLe] at h1 h2 ⊢
      by_cases p1 : a.toNat < b.toNat
      · by_cases q1 : b.toNat < c.toNat
        · rw [if_pos (show a.toNat < c.toNat by omega)]
        · rw [if_neg q1] at h2
          by_cases q2 : c.toNat < b.toNat
          · rw [if_pos q2] at h2
            exact absurd h2 (by simp)
          · rw [if_pos (show a.toNat < c.toNat by omega)]
      · rw [if_neg p1] at h1
        by_cases p2 : b.toNat < a.toNat
        · rw [if_pos p2] at h1
          exact absurd h1 (by simp)
        · rw [if_neg p2] at h1
          by_cases q1 : b.toNat < c.toNat
          · rw [if_pos (show a.toNat < c.toNat by omega)]
          · rw [if_neg q1] at h2
            by_cases q2 : c.toNat < b.toNat
            · rw [if_pos q2] at h2
              exact absurd h2 (by simp)
            · rw [if_neg q2] at h2
              rw [if_neg (show ¬ a.toNat < c.toNat by omega),
                if_neg (show ¬ c.toNat < a.toNat by omega)]
              exact charsLe_trans h1 h2

instance : IsTotal String strLe :=
  ⟨fun a b => charsLe_total a.data b.data⟩

instance : IsTrans String strLe :=
  ⟨fun _ _ _ h1 h2 => charsLe_trans h1 h2⟩

/-- One rendered tag pair, the format string name=\"value\". -/
def fmtPair (name value : String) : String :=
  name ++ "=\"" ++ value ++ "\""

/-- Rendered tag block of encode_tags: the name=\"value\" parts are collected,
sorted as whole strings and joined with commas inside braces; a missing tag
set renders as the empty string. -/
def encode_tags (tags : Option (List (String × String))) : String :=
  match tags with
  | some tags =>
      let parts := (tags.map (fun p => fmtPair p.1 p.2)).insertionSort strLe
      "\x7b" ++ String.intercalate "," parts ++ "\x7d"
  | none => ""

/-- Rendered tag block of encode_tags_with_extra: the synthetic pair is
chained onto the entry's own pairs before formatting and sorting; with no
tag set only the synthetic pair is rendered, still inside braces. -/
def encode_tags_with_extra (tags : Option (List (String × String)))
    (tag value : String) : String :=
  let parts : List String :=
    match tags with
    | some tags => (tags.map (fun p => fmtPair p.1 p.2)) ++ [fmtPair tag value]
    | none => [fmtPair tag value]
  "\x7b" ++ String.intercalate "," (parts.insertionSort strLe) ++ "\x7d"

/-- Modelled from the spec: encode_namespace joins the optional namespace
prefix and the metric name with an underscore to form the fully-qualified
name. -/
def encode_namespace (namespace_ : Option String) (name : String) : String :=
  match namespace_ with
  | some n => n ++ "_" ++ name
  | none => name

/-! ## Distribution statistic calculator -/

/-- Order statistics of a weighted sample distribution
(DistributionStatistic in the source tree). -/
structure DistributionStatistic where
  quantiles : List (Rat × Rat)
  sum : Rat
  count : Nat
  min : Rat
  max : Rat
  avg : Rat
deriving DecidableEq

/-- Modelled from the spec: DistributionStatistic::new expands each sample by
its weight, returns nothing when the expanded input is empty, and otherwise
computes the true minimum, maximum, weighted sum, count and mean together
with one nearest-rank quantile value per requested level. -/
def DistributionStatistic.new (values : List Rat) (sample_rates : List Nat)
    (quantiles : List Rat) : Option DistributionStatistic :=
  let samples := ((values.zip sample_rates).map
    (fun p => List.replicate p.2 p.1)).flatten
  if samples.isEmpty then none
  else
    let sorted := samples.insertionSort (· ≤ ·)
    let count := samples.length
    let sum := samples.sum
    some
      { quantiles := quantiles.map (fun q =>
          (q, sorted.getD (round (q * ((count : Rat) - 1))).toNat 0))
        sum := sum
        count := count
        min := sorted.headD 0
        max := sorted.getLastD 0
        avg := sum / (count : Rat) }

/-! ## Metric headers and data lines -/

/-- Exposition type tag of a metric value, the match inside
encode_metric_header. -/
def metric_type : MetricValue → String
  | .counter _ => "counter"
  | .gauge _ => "gauge"
  | .distribution _ _ .histogram => "histogram"
  | .distribution _ _ .summary => "summary"
  | .set _ => "gauge"
  | .aggregatedHistogram _ _ _ _ => "histogram"
  | .aggregatedSummary _ _ _ _ => "summary"

/-- Header block of encode_metric_header: a HELP line and a TYPE line. -/
def encode_metric_header (namespace_ : Option String) (metric : Metric) : String :=
  let fullname := encode_namespace namespace_ metric.name
  "# HELP " ++ fullname ++ " " ++ metric.name ++ "\n" ++
    "# TYPE " ++ fullname ++ " " ++ metric_type metric.value ++ "\n"

/-- Value of the synthetic tag on a data line: a finite numeric bound or
quantile level, or the literal +Inf bound. -/
inductive ExtraV where
  | num (x : Rat)
  | inf
deriving DecidableEq

/-- One data line pushed by encode_metric_datum, kept structured: the line
name (fully-qualified name plus suffix), the tag-set argument handed to
encode_tags or encode_tags_with_extra, the synthetic pair when
encode_tags_with_extra is used, and the numeric value.  Only the decimal
formatting of numbers is abstracted away. -/
structure Line where
  name : String
  tags : Option (List (String × String))
  extra : Option (String × ExtraV)
  value : Rat
deriving DecidableEq

/-- Add a weight to every histogram bucket counter in a list (the for_each
over the buckets remaining after skip_while). -/
def bumpAll (counts : List Nat) (c : Nat) : List Nat :=
  counts.map (· + c)

/-- One sample's pass over the bucket counters: counters are skipped while
their bound is strictly below the sample value and every later counter is
incremented by the sample's rate (the skip_while / for_each pair of the
histogram branch). -/
def updateCounts : List Rat → List Nat → Rat → Nat → List Nat
  | b :: bs, k :: ks, v, c =>
      if b < v then k :: updateCounts bs ks v c else (k + c) :: bumpAll ks c
  | _, ks, _, _ => ks

/-- Body of the per-sample loop of the histogram branch: one sample updates
the bucket counters and accumulates the weighted sum and total count. -/
def histStep (buckets : List Rat) (acc : List Nat × Rat × Nat)
    (vc : Rat × Nat) : List Nat × Rat × Nat :=
  (updateCounts buckets acc.1 vc.1 vc.2,
    acc.2.1 + vc.1 * (vc.2 : Rat), acc.2.2 + vc.2)

/-- Accumulator pass of the histogram branch: bucket counters start at zero
and each (value, rate) sample updates the counters and accumulates the
weighted sum and total count. -/
def histAccum (buckets : List Rat) (samples : List (Rat × Nat)) :
    List Nat × Rat × Nat :=
  samples.foldl (histStep buckets) (List.replicate buckets.length 0, 0, 0)

/-- Data lines of encode_metric_datum.  A non-absolute metric produces no
lines; otherwise the match on the value kind mirrors the source branch for
branch, one structured Line per formatted line in push order. -/
def encode_metric_datum (namespace_ : Option String) (buckets : List Rat)
    (quantiles : List Rat) (expired : Bool) (metric : Metric) : List Line :=
  let fullname := encode_namespace namespace_ metric.name
  if metric.kind = .absolute then
    let tags := metric.tags
    match metric.value with
    | .counter value => [⟨fullname, tags, none, value⟩]
    | .gauge value => [⟨fullname, tags, none, value⟩]
    | .set values =>
        let value : Nat := if expired then 0 else values.card
        [⟨fullname, tags, none, (value : Rat)⟩]
    | .distribution values sample_rates .histogram =>
        let acc := histAccum buckets (values.zip sample_rates)
        let counts := acc.1
        let sum := acc.2.1
        let count := acc.2.2
        (buckets.zip counts).map
          (fun bc => ⟨fullname ++ "_bucket", tags, some ("le", .num bc.1),
            (bc.2 : Rat)⟩)
        ++ [⟨fullname ++ "_bucket", tags, some ("le", .inf), (count : Rat)⟩,
            ⟨fullname ++ "_sum", tags, none, sum⟩,
            ⟨fullname ++ "_count", tags, none, (count : Rat)⟩]
    | .distribution values sample_rates .summary =>
        match DistributionStatistic.new values sample_rates quantiles with
        | some statistic =>
            statistic.quantiles.map
              (fun qv => ⟨fullname, tags, some ("quantile", .num qv.1), qv.2⟩)
            ++ [⟨fullname ++ "_sum", tags, none, statistic.sum⟩,
                ⟨fullname ++ "_count", tags, none, (statistic.count : Rat)⟩,
                ⟨fullname ++ "_min", tags, none, statistic.min⟩,
                ⟨fullname ++ "_max", tags, none, statistic.max⟩,
                ⟨fullname ++ "_avg", tags, none, statistic.avg⟩]
        | none =>
            [⟨fullname ++ "_sum", tags, none, 0⟩,
             ⟨fullname ++ "_count", tags, none, 0⟩]
    | .aggregatedHistogram hbuckets counts count sum =>
        (hbuckets.zip counts).map
          (fun bc => ⟨fullname ++ "_bucket", tags, some ("le", .num bc.1),
            (bc.2 : Rat)⟩)
        ++ [⟨fullname ++ "_bucket", tags, some ("le", .inf), (count : Rat)⟩,
            ⟨fullname ++ "_sum", tags, none, sum⟩,
            ⟨fullname ++ "_count", tags, none, (count : Rat)⟩]
    | .aggregatedSummary qlevels qvalues count sum =>
        (qlevels.zip qvalues).map
          (fun qv => ⟨fullname, tags, some ("quantile", .num qv.1), qv.2⟩)
        ++ [⟨fullname ++ "_sum", tags, none, sum⟩,
            ⟨fullname ++ "_count", tags, none, (count : Rat)⟩]
  else []

/-! ## Request handler -/

/-- One emitted piece of the render loop inside handle: either the header
block of a metric (rendered by encode_metric_header) or the data lines of a
metric (rendered by encode_metric_datum). -/
inductive RenderItem where
  | header (m : Metric)
  | datum (m : Metric)
deriving DecidableEq

/-- Render loop of handle over the registry entries: the frame of every
entry is emitted, preceded by a header block the first time a metric name is
encountered; the seen argument is the processed_headers set, a fresh empty
set at the start of every request. -/
def render_items (seen : List String) : List Metric → List RenderItem
  | [] => []
  | metric :: rest =>
      if metric.name ∈ seen then
        .datum metric :: render_items seen rest
      else
        .header metric :: .datum metric :: render_items (metric.name :: seen) rest

/-- HTTP response as far as the handler determines it: status code,
structured exposition body and the Content-Type header. -/
structure HttpResponse where
  status : Nat
  body : List RenderItem
  contentType : Option String
deriving DecidableEq

/-- Request handler: a GET of /metrics renders the registry with a fresh
header-deduplication set and a versioned text/plain content type; every
other method or path yields a 404 with an empty body and no content type. -/
def handle (method path : String) (metrics : List Metric) : HttpResponse :=
  if method = "GET" ∧ path = "/metrics" then
    { status := 200
      body := render_items [] metrics
      contentType := some "text/plain; version=0.0.4" }
  else
    { status := 404, body := [], contentType := none }

/-! ## Expiry checks and the merge loop -/

/-- Reinterpretation of a u64 value as i64 (the cast flush_period_secs as
i64 in the merge path). -/
def i64OfU64 (n : Nat) : Int :=
  if n < 2 ^ 63 then (n : Int) else (n : Int) - 2 ^ 64

/-- Reinterpretation of an i64 value as u64 (the cast of the signed
timestamp difference to u64 in the service closure). -/
def u64OfI64 (x : Int) : Nat :=
  (x % 2 ^ 64).toNat

/-- Expiry computation of the per-request service closure in
start_server_if_needed: the signed difference now - last_flush_timestamp is
cast to u64 before being compared with the flush period. -/
def requestExpired (now lastFlush : Int) (flushPeriodSecs : Nat) : Bool :=
  let interval := u64OfI64 (now - lastFlush)
  decide (interval > flushPeriodSecs)

/-- Expiry computation of the merge path in PrometheusSink::run: the signed
difference is kept as i64 and compared with the flush period cast to i64. -/
def mergeExpired (now lastFlush : Int) (flushPeriodSecs : Nat) : Bool :=
  let interval := now - lastFlush
  decide (interval > i64OfU64 flushPeriodSecs)

/-- Shared mutable state of the sink: the registry entries in iteration
order and the global reset timestamp. -/
structure SinkState where
  metrics : List Metric
  lastFlushTimestamp : Int
deriving DecidableEq

/-- One iteration of the event loop of PrometheusSink::run: an Incremental
update is normalized with to_absolute and folded into the taken existing
entry (resetting Set members and advancing the global reset timestamp when
the flush period has elapsed), then reinserted; an Absolute update replaces
the entry in place via IndexSet::replace. -/
def mergeStep (flushPeriodSecs : Nat) (now : Int) (st : SinkState)
    (item : Metric) : SinkState :=
  match item.kind with
  | .incremental =>
      let new := item.toAbsolute
      match takeEntry st.metrics new with
      | some (existing, rest) =>
          let doReset := item.value.isSet &&
            mergeExpired now st.lastFlushTimestamp flushPeriodSecs
          let existing1 := if doReset then existing.reset else existing
          let lastFlush1 := if doReset then now else st.lastFlushTimestamp
          { metrics := insertEntry rest (existing1.add item)
            lastFlushTimestamp := lastFlush1 }
      | none => { st with metrics := insertEntry st.metrics new }
  | .absolute =>
      { st with metrics := replaceEntry st.metrics item }

/-- Fold of the event loop over a sequence of timestamped updates. -/
def applyUpdates (flushPeriodSecs : Nat) (st : SinkState)
    (updates : List (Int × Metric)) : SinkState :=
  updates.foldl (fun s u => mergeStep flushPeriodSecs u.1 s u.2) st

/-! ## Registry lookup and key discipline -/

/-- Key of a registry entry, the projection entry equality compares. -/
abbrev MetricKey := String × Option (List (String × String)) × Nat

/-- First entry with the given key, the reading a snapshot performs for one
identity. -/
def findEntry (k : MetricKey) (l : List Metric) : Option Metric :=
  l.find? (fun e => decide (e.key = k))

/-- Registry key discipline: at most one entry per identity. -/
def NodupKeys (l : List Metric) : Prop :=
  (l.map Metric.key).Nodup

instance (l : List Metric) : Decidable (NodupKeys l) := by
  unfold NodupKeys
  infer_instance

/-! ## Spec-side comparison definitions -/

/-- Spec wording of the histogram bucket rule (for claim C3): the weighted
number of samples whose value is less than or equal to the bound, each
sample weighted by its rate. -/
def spec_bucket_count (samples : List (Rat × Nat)) (bound : Rat) : Nat :=
  ((samples.filter (fun s => decide (s.1 ≤ bound))).map (fun s => s.2)).sum

/-- Spec wording of tag rendering (for claim C6): tag pairs sorted
lexicographically by tag name before being rendered. -/
def encode_tags_by_name (tags : Option (List (String × String))) : String :=
  match tags with
  | some tags =>
      let sorted := tags.insertionSort (fun a b => strLe a.1 b.1)
      "\x7b" ++ String.intercalate "," (sorted.map (fun p => fmtPair p.1 p.2))
        ++ "\x7d"
  | none => ""

/-- Total weight of a sample list, the count accumulated by the histogram
loop. -/
def totalCount (samples : List (Rat × Nat)) : Nat :=
  (samples.map (fun s => s.2)).sum

/-- Weighted sum of a sample list, the sum accumulated by the histogram
loop. -/
def weightedSum (samples : List (Rat × Nat)) : Rat :=
  (samples.map (fun s => s.1 * (s.2 : Rat))).sum

/-- Metric name carried by a render item. -/
def itemName : RenderItem → String
  | .header m => m.name
  | .datum m => m.name

/-- Whether a render item is a data frame rather than a header block. -/
def isDatum : RenderItem → Bool
  | .header _ => false
  | .datum _ => true

/-- Whether a render item carries the given metric name. -/
def hasName (n : String) (it : RenderItem) : Bool :=
  decide (itemName it = n)

/-- Whether a metric carries the given name. -/
def metricHasName (n : String) (m : Metric) : Bool :=
  decide (m.name = n)

/-! ## Lemmas about keys and entry equality -/

theorem entryEq_iff {a b : Metric} : entryEq a b = true ↔ a.key = b.key := by
  simp [entryEq]

theorem entryEq_false_iff {a b : Metric} : entryEq a b = false ↔ a.key ≠ b.key := by
  simp [entryEq]

theorem key_toAbsolute (m : Metric) : m.toAbsolute.key = m.key := rfl

theorem key_add (m other : Metric) : (m.add other).key = m.key := by
  obtain ⟨n, ts, tg, k, v⟩ := m
  obtain ⟨n2, ts2, tg2, k2, v2⟩ := other
  cases v <;> cases v2 <;> rfl

theorem key_reset (m : Metric) : m.reset.key = m.key := by
  obtain ⟨n, ts, tg, k, v⟩ := m
  cases v <;> rfl

/-! ## Lemmas about find_index, findEntry, replaceEntry, insertEntry -/

theorem find_index_eq_none_iff {probe : Metric} {l : List Metric} :
    find_index probe l = none ↔ ∀ e ∈ l, entryEq e probe = false := by
  induction l with
  | nil => simp [find_index]
  | cons a t ih =>
      by_cases h : entryEq a probe
      · simp [find_index, h]
      · simp only [find_index, h, Bool.false_eq_true, if_false,
          Option.map_eq_none', List.mem_cons]
        rw [ih]
        constructor
        · rintro hall e (rfl | he)
          · simpa using h
          · exact hall e he
        · intro hall e he
          exact hall e (Or.inr he)

theorem find_index_spec {probe : Metric} {l : List Metric} {i : Nat}
    (h : find_index probe l = some i) :
    i < l.length ∧ ∃ e, l[i]? = some e ∧ entryEq e probe = true := by
  induction l generalizing i with
  | nil => simp [find_index] at h
  | cons a t ih =>
      by_cases ha : entryEq a probe
      · simp only [find_index, ha, if_true, Option.some.injEq] at h
        subst h
        exact ⟨by simp, a, by simp, ha⟩
      · simp only [find_index, ha, Bool.false_eq_true, if_false,
          Option.map_eq_some'] at h
        obtain ⟨j, hj, rfl⟩ := h
        obtain ⟨hlt, e, he, hee⟩ := ih hj
        exact ⟨by simpa using hlt, e, by simpa using he, hee⟩

theorem findEntry_cons {k : MetricKey} {a : Metric} {t : List Metric} :
    findEntry k (a :: t) = if a.key = k then some a else findEntry k t := by
  by_cases h : a.key = k <;> simp [findEntry, List.find?_cons, h]

theorem findEntry_eq_none_iff {k : MetricKey} {l : List Metric} :
    findEntry k l = none ↔ ∀ e ∈ l, e.key ≠ k := by
  simp [findEntry]

theorem find_index_cons {probe a : Metric} {t : List Metric} :
    find_index probe (a :: t) =
      if entryEq a probe then some 0 else (find_index probe t).map (· + 1) :=
  rfl

theorem replaceEntry_cons {a : Metric} {t : List Metric} {m : Metric} :
    replaceEntry (a :: t) m =
      if entryEq a m then m :: t else a :: replaceEntry t m := by
  by_cases h : entryEq a m
  · simp [replaceEntry, find_index_cons, h, List.set]
  · simp only [h, Bool.false_eq_true, if_false]
    unfold replaceEntry
    rw [find_index_cons, if_neg (by simp [h])]
    cases hf : find_index m t with
    | some j => simp [hf, List.set]
    | none => simp [hf]

theorem findEntry_replaceEntry (m : Metric) (l : List Metric) :
    findEntry m.key (replaceEntry l m) = some m := by
  induction l with
  | nil => simp [replaceEntry, find_index, findEntry, List.find?]
  | cons a t ih =>
      rw [replaceEntry_cons]
      by_cases h : entryEq a m
      · rw [if_pos h, findEntry_cons, if_pos rfl]
      · rw [if_neg (by simp [h]), findEntry_cons,
          if_neg (by simpa [entryEq] using h), ih]

theorem findEntry_replaceEntry_ne {l : List Metric} {m : Metric} {k : MetricKey}
    (hne : m.key ≠ k) :
    findEntry k (replaceEntry l m) = findEntry k l := by
  induction l with
  | nil =>
      simp only [replaceEntry, find_index, List.nil_append]
      rw [findEntry_cons, if_neg hne]
  | cons a t ih =>
      rw [replaceEntry_cons]
      by_cases h : entryEq a m
      · rw [if_pos h, findEntry_cons, findEntry_cons, if_neg hne,
          if_neg (by rw [entryEq_iff] at h; rw [h]; exact hne)]
      · rw [if_neg (by simp [h]), findEntry_cons, findEntry_cons, ih]

theorem insertEntry_of_no_match {l : List Metric} {m : Metric}
    (h : ∀ e ∈ l, entryEq e m = false) : insertEntry l m = l ++ [m] := by
  unfold insertEntry
  have hany : l.any (fun e => entryEq e m) = false := by
    simp only [List.any_eq_false]
    intro e he
    simp [h e he]
  simp [hany]

/-! ## Lemmas about swap removal and takeEntry -/

theorem swapRemoveAt_cons_succ {a : Metric} {t : List Metric} {j : Nat}
    (ht : t ≠ []) :
    swapRemoveAt (a :: t) (j + 1) = a :: swapRemoveAt t j := by
  obtain ⟨b, t', rfl⟩ := List.exists_cons_of_ne_nil ht
  simp only [swapRemoveAt, List.getLast?_cons_cons, List.set_cons_succ]
  cases hg : (b :: t').getLast? with
  | none => simp at hg
  | some z =>
      show (a :: (b :: t').set j z).dropLast = a :: ((b :: t').set j z).dropLast
      have hne : (b :: t').set j z ≠ [] := by
        intro hset
        have hlen := congrArg List.length hset
        simp at hlen
      rw [List.dropLast_cons_of_ne_nil hne]

theorem takeEntry_eq_none_iff {l : List Metric} {probe : Metric} :
    takeEntry l probe = none ↔ find_index probe l = none := by
  unfold takeEntry
  cases hf : find_index probe l with
  | none => simp
  | some i =>
      obtain ⟨hlt, e, he, _⟩ := find_index_spec hf
      simp [he]

theorem swapRemoveAt_perm {l : List Metric} {i : Nat} {e : Metric}
    (he : l[i]? = some e) : l.Perm (e :: swapRemoveAt l i) := by
  induction l generalizing i with
  | nil => simp at he
  | cons a t ih =>
      cases i with
      | zero =>
          rw [List.getElem?_cons_zero, Option.some.injEq] at he
          subst he
          refine List.Perm.cons a ?_
          cases t with
          | nil => exact List.Perm.refl _
          | cons b t' =>
              show (b :: t').Perm (swapRemoveAt (a :: b :: t') 0)
              unfold swapRemoveAt
              simp only [List.getLast?_cons_cons]
              cases hg : (b :: t').getLast? with
              | none => simp at hg
              | some z =>
                  have hz : (b :: t').dropLast ++ [z] = b :: t' :=
                    List.dropLast_append_getLast? z hg
                  show (b :: t').Perm ((a :: b :: t').set 0 z).dropLast
                  rw [List.set_cons_zero, List.dropLast_cons₂]
                  have h1 : ((b :: t').dropLast ++ [z]).Perm
                      (z :: (b :: t').dropLast) :=
                    List.perm_append_singleton z _
                  conv_lhs => rw [← hz]
                  exact h1
      | succ j =>
          rw [List.getElem?_cons_succ] at he
          have htne : t ≠ [] := by
            intro hnil
            rw [hnil] at he
            simp at he
          rw [swapRemoveAt_cons_succ htne]
          exact (List.Perm.cons a (ih he)).trans
            (List.Perm.swap e a (swapRemoveAt t j))

theorem takeEntry_perm {l : List Metric} {probe e : Metric}
    {rest : List Metric} (h : takeEntry l probe = some (e, rest)) :
    entryEq e probe = true ∧ l.Perm (e :: rest) := by
  unfold takeEntry at h
  cases hf : find_index probe l with
  | none => rw [hf] at h; simp at h
  | some i =>
      rw [hf] at h
      obtain ⟨hlt, e', he', hee'⟩ := find_index_spec hf
      simp only [he', Option.some.injEq, Prod.mk.injEq] at h
      obtain ⟨rfl, rfl⟩ := h
      exact ⟨hee', swapRemoveAt_perm he'⟩

theorem swapRemoveAt_length {l : List Metric} {i : Nat} (h : i < l.length) :
    (swapRemoveAt l i).length = l.length - 1 := by
  unfold swapRemoveAt
  cases l with
  | nil => simp at h
  | cons a t =>
      cases hg : (a :: t).getLast? with
      | none => simp at hg
      | some z => simp

theorem swapRemoveAt_getElem? {l : List Metric} {i j : Nat} (hi : i < l.length)
    (hj : j + 1 < l.length) :
    (swapRemoveAt l i)[j]? =
      if j = i then l[l.length - 1]? else l[j]? := by
  unfold swapRemoveAt
  cases l with
  | nil => simp at hi
  | cons a t =>
      cases hg : (a :: t).getLast? with
      | none => simp at hg
      | some z =>
          have hz : (a :: t)[(a :: t).length - 1]? = some z := by
            rw [← List.getLast?_eq_getElem?, hg]
          rw [List.getElem?_dropLast, List.length_set, if_pos (by omega),
            List.getElem?_set, hz]
          by_cases hij : i = j
          · rw [if_pos hij, if_pos (by omega), if_pos hij.symm]
          · rw [if_neg hij, if_neg (fun hh => hij hh.symm)]

/-! ## Lemmas about key uniqueness and lookup stability -/

theorem nodupKeys_perm {l l' : List Metric} (h : l.Perm l') :
    NodupKeys l ↔ NodupKeys l' :=
  (h.map Metric.key).nodup_iff

theorem nodupKeys_cons {e : Metric} {t : List Metric} :
    NodupKeys (e :: t) ↔ e.key ∉ t.map Metric.key ∧ NodupKeys t := by
  simp [NodupKeys]

theorem findEntry_eq_some_iff {k : MetricKey} {l : List Metric}
    (hnd : NodupKeys l) {e : Metric} :
    findEntry k l = some e ↔ e ∈ l ∧ e.key = k := by
  induction l with
  | nil => simp [findEntry]
  | cons a t ih =>
      rw [nodupKeys_cons] at hnd
      rw [findEntry_cons]
      by_cases h : a.key = k
      · rw [if_pos h]
        simp only [Option.some.injEq, List.mem_cons]
        constructor
        · rintro rfl
          exact ⟨Or.inl rfl, h⟩
        · rintro ⟨(rfl | hm), hek⟩
          · rfl
          · have hmem : e.key ∈ t.map Metric.key := List.mem_map_of_mem _ hm
            have hae : e.key = a.key := hek.trans h.symm
            exact absurd (hae ▸ hmem) hnd.1
      · rw [if_neg h, ih hnd.2]
        simp only [List.mem_cons]
        constructor
        · rintro ⟨hm, hek⟩
          exact ⟨Or.inr hm, hek⟩
        · rintro ⟨(rfl | hm), hek⟩
          · exact absurd hek h
          · exact ⟨hm, hek⟩

theorem findEntry_perm {l l' : List Metric} (hnd : NodupKeys l)
    (h : l.Perm l') (k : MetricKey) :
    findEntry k l = findEntry k l' := by
  have hnd' : NodupKeys l' := (nodupKeys_perm h).mp hnd
  cases hf : findEntry k l with
  | some e =>
      rw [findEntry_eq_some_iff hnd] at hf
      symm
      rw [findEntry_eq_some_iff hnd']
      exact ⟨h.mem_iff.mp hf.1, hf.2⟩
  | none =>
      rw [findEntry_eq_none_iff] at hf
      symm
      rw [findEntry_eq_none_iff]
      intro e he
      exact hf e (h.mem_iff.mpr he)

theorem findEntry_append_singleton_ne {l : List Metric} {m : Metric}
    {k : MetricKey} (h : m.key ≠ k) :
    findEntry k (l ++ [m]) = findEntry k l := by
  unfold findEntry
  rw [List.find?_append]
  have hm : List.find? (fun e => decide (e.key = k)) [m] = none := by
    simp [h]
  rw [hm, Option.or_none]

theorem mem_keys_replaceEntry {t : List Metric} {m : Metric} {k : MetricKey}
    (hk : k ∈ (replaceEntry t m).map Metric.key) :
    k ∈ t.map Metric.key ∨ k = m.key := by
  induction t with
  | nil =>
      simp only [replaceEntry, find_index, List.nil_append, List.map_cons,
        List.map_nil, List.mem_singleton] at hk
      exact Or.inr hk
  | cons a t ih =>
      rw [replaceEntry_cons] at hk
      by_cases h : entryEq a m
      · rw [if_pos h] at hk
        simp only [List.map_cons, List.mem_cons] at hk
        rcases hk with hk | hk
        · exact Or.inr hk
        · exact Or.inl (by simp only [List.map_cons, List.mem_cons]; exact Or.inr hk)
      · rw [if_neg (by simp [h])] at hk
        simp only [List.map_cons, List.mem_cons] at hk
        rcases hk with hk | hk
        · exact Or.inl (by simp only [List.map_cons, List.mem_cons]; exact Or.inl hk)
        · rcases ih hk with hk' | hk'
          · exact Or.inl (by simp only [List.map_cons, List.mem_cons]; exact Or.inr hk')
          · exact Or.inr hk'

theorem nodupKeys_replaceEntry {l : List Metric} {m : Metric}
    (hnd : NodupKeys l) : NodupKeys (replaceEntry l m) := by
  induction l with
  | nil => simp [replaceEntry, find_index, NodupKeys]
  | cons a t ih =>
      rw [nodupKeys_cons] at hnd
      rw [replaceEntry_cons]
      by_cases h : entryEq a m
      · rw [if_pos h, nodupKeys_cons]
        rw [entryEq_iff] at h
        exact ⟨h ▸ hnd.1, hnd.2⟩
      · rw [if_neg (by simp [h]), nodupKeys_cons]
        refine ⟨?_, ih hnd.2⟩
        intro habs
        rcases mem_keys_replaceEntry habs with hk | hk
        · exact hnd.1 hk
        · exact absurd hk (by simpa [entryEq] using h)

theorem nodupKeys_append_singleton {rest : List Metric} {f : Metric}
    (h1 : f.key ∉ rest.map Metric.key) (h2 : NodupKeys rest) :
    NodupKeys (rest ++ [f]) := by
  rw [nodupKeys_perm (List.perm_append_singleton f rest)]
  exact nodupKeys_cons.mpr ⟨h1, h2⟩

theorem key_folded (e item : Metric) (b : Bool) :
    ((if b then e.reset else e).add item).key = e.key := by
  cases b <;> simp [key_add, key_reset]

theorem insertEntry_eq_append {rest : List Metric} {f : Metric}
    (hf : f.key ∉ rest.map Metric.key) : insertEntry rest f = rest ++ [f] := by
  apply insertEntry_of_no_match
  intro x hx
  rw [entryEq_false_iff]
  intro hxk
  exact hf (hxk ▸ List.mem_map_of_mem _ hx)

/-! ## Lemmas about the merge step -/

theorem mergeStep_absolute {flush : Nat} {now : Int} {st : SinkState}
    {item : Metric} (hk : item.kind = .absolute) :
    mergeStep flush now st item =
      { st with metrics := replaceEntry st.metrics item } := by
  simp only [mergeStep, hk]

theorem mergeStep_incremental_none {flush : Nat} {now : Int} {st : SinkState}
    {item : Metric} (hk : item.kind = .incremental)
    (ht : takeEntry st.metrics item.toAbsolute = none) :
    mergeStep flush now st item =
      { st with metrics := insertEntry st.metrics item.toAbsolute } := by
  simp only [mergeStep, hk, ht]

theorem mergeStep_incremental_some {flush : Nat} {now : Int} {st : SinkState}
    {item e : Metric} {rest : List Metric} (hk : item.kind = .incremental)
    (ht : takeEntry st.metrics item.toAbsolute = some (e, rest)) :
    mergeStep flush now st item =
      { metrics := insertEntry rest
          ((if item.value.isSet && mergeExpired now st.lastFlushTimestamp flush
            then e.reset else e).add item)
        lastFlushTimestamp :=
          if item.value.isSet && mergeExpired now st.lastFlushTimestamp flush
          then now else st.lastFlushTimestamp } := by
  simp only [mergeStep, hk, ht]

theorem takeEntry_some_key {l : List Metric} {probe e : Metric}
    {rest : List Metric} (h : takeEntry l probe = some (e, rest)) :
    e.key = probe.key :=
  entryEq_iff.mp (takeEntry_perm h).1

theorem nodupKeys_mergeStep {flush : Nat} {now : Int} {st : SinkState}
    {item : Metric} (hnd : NodupKeys st.metrics) :
    NodupKeys (mergeStep flush now st item).metrics := by
  cases hk : item.kind with
  | absolute =>
      rw [mergeStep_absolute hk]
      exact nodupKeys_replaceEntry hnd
  | incremental =>
      cases ht : takeEntry st.metrics item.toAbsolute with
      | none =>
          rw [mergeStep_incremental_none hk ht]
          have hnm := find_index_eq_none_iff.mp (takeEntry_eq_none_iff.mp ht)
          rw [insertEntry_of_no_match hnm]
          apply nodupKeys_append_singleton ?_ hnd
          intro habs
          rw [List.mem_map] at habs
          obtain ⟨x, hx, hxk⟩ := habs
          exact entryEq_false_iff.mp (hnm x hx) hxk
      | some pr =>
          obtain ⟨e, rest⟩ := pr
          rw [mergeStep_incremental_some hk ht]
          obtain ⟨hee, hperm⟩ := takeEntry_perm ht
          have hndc := (nodupKeys_perm hperm).mp hnd
          rw [nodupKeys_cons] at hndc
          have hfk := key_folded e item
            (item.value.isSet && mergeExpired now st.lastFlushTimestamp flush)
          have hfnot : ((if item.value.isSet &&
              mergeExpired now st.lastFlushTimestamp flush
              then e.reset else e).add item).key ∉ rest.map Metric.key := by
            rw [hfk]
            exact hndc.1
          rw [insertEntry_eq_append hfnot]
          exact nodupKeys_append_singleton hfnot hndc.2

theorem findEntry_mergeStep_ne {flush : Nat} {now : Int} {st : SinkState}
    {item : Metric} {k : MetricKey} (hnd : NodupKeys st.metrics)
    (hne : item.key ≠ k) :
    findEntry k (mergeStep flush now st item).metrics =
      findEntry k st.metrics := by
  cases hk : item.kind with
  | absolute =>
      rw [mergeStep_absolute hk]
      exact findEntry_replaceEntry_ne hne
  | incremental =>
      cases ht : takeEntry st.metrics item.toAbsolute with
      | none =>
          rw [mergeStep_incremental_none hk ht]
          have hnm := find_index_eq_none_iff.mp (takeEntry_eq_none_iff.mp ht)
          rw [insertEntry_of_no_match hnm]
          exact findEntry_append_singleton_ne (by rw [key_toAbsolute]; exact hne)
      | some pr =>
          obtain ⟨e, rest⟩ := pr
          rw [mergeStep_incremental_some hk ht]
          obtain ⟨hee, hperm⟩ := takeEntry_perm ht
          have hek : e.key = item.key := by
            rw [takeEntry_some_key ht, key_toAbsolute]
          have hfk := key_folded e item
            (item.value.isSet && mergeExpired now st.lastFlushTimestamp flush)
          have hndc := (nodupKeys_perm hperm).mp hnd
          rw [nodupKeys_cons] at hndc
          have hfnot : ((if item.value.isSet &&
              mergeExpired now st.lastFlushTimestamp flush
              then e.reset else e).add item).key ∉ rest.map Metric.key := by
            rw [hfk]
            exact hndc.1
          rw [insertEntry_eq_append hfnot]
          rw [findEntry_append_singleton_ne (by rw [hfk, hek]; exact hne)]
          rw [findEntry_perm hnd hperm k, findEntry_cons,
            if_neg (by rw [hek]; exact hne)]

theorem mergeStep_incremental_append {flush : Nat} {now : Int}
    {st : SinkState} {item e : Metric} {rest : List Metric}
    (hnd : NodupKeys st.metrics) (hk : item.kind = .incremental)
    (ht : takeEntry st.metrics item.toAbsolute = some (e, rest)) :
    (mergeStep flush now st item).metrics =
      rest ++ [(if item.value.isSet &&
          mergeExpired now st.lastFlushTimestamp flush
        then e.reset else e).add item] := by
  rw [mergeStep_incremental_some hk ht]
  obtain ⟨hee, hperm⟩ := takeEntry_perm ht
  have hndc := (nodupKeys_perm hperm).mp hnd
  rw [nodupKeys_cons] at hndc
  have hfk := key_folded e item
    (item.value.isSet && mergeExpired now st.lastFlushTimestamp flush)
  exact insertEntry_eq_append (by rw [hfk]; exact hndc.1)

theorem findEntry_mergeStep_absolute {flush : Nat} {now : Int}
    {st : SinkState} {item : Metric} (hk : item.kind = .absolute) :
    findEntry item.key (mergeStep flush now st item).metrics = some item := by
  rw [mergeStep_absolute hk]
  exact findEntry_replaceEntry item st.metrics

theorem applyUpdates_cons {flush : Nat} {st : SinkState} {u : Int × Metric}
    {us : List (Int × Metric)} :
    applyUpdates flush st (u :: us) =
      applyUpdates flush (mergeStep flush u.1 st u.2) us :=
  rfl

theorem applyUpdates_append {flush : Nat} {st : SinkState}
    {us1 us2 : List (Int × Metric)} :
    applyUpdates flush st (us1 ++ us2) =
      applyUpdates flush (applyUpdates flush st us1) us2 := by
  simp [applyUpdates, List.foldl_append]

theorem applyUpdates_invariant {flush : Nat} {k : MetricKey} :
    ∀ (us : List (Int × Metric)) (st : SinkState), NodupKeys st.metrics →
      (∀ u ∈ us, (u.2).key ≠ k) →
      NodupKeys (applyUpdates flush st us).metrics ∧
        findEntry k (applyUpdates flush st us).metrics =
          findEntry k st.metrics := by
  intro us
  induction us with
  | nil => exact fun st h1 _ => ⟨h1, rfl⟩
  | cons u rest ih =>
      intro st h1 h2
      rw [applyUpdates_cons]
      have hstep : NodupKeys (mergeStep flush u.1 st u.2).metrics :=
        nodupKeys_mergeStep h1
      obtain ⟨hn, hf⟩ := ih (mergeStep flush u.1 st u.2) hstep
        (fun v hv => h2 v (List.mem_cons_of_mem u hv))
      refine ⟨hn, ?_⟩
      rw [hf]
      exact findEntry_mergeStep_ne h1 (h2 u (List.mem_cons_self u rest))

theorem nodupKeys_applyUpdates {flush : Nat} :
    ∀ (us : List (Int × Metric)) (st : SinkState), NodupKeys st.metrics →
      NodupKeys (applyUpdates flush st us).metrics := by
  intro us
  induction us with
  | nil => exact fun _ h => h
  | cons u rest ih =>
      intro st h1
      rw [applyUpdates_cons]
      exact ih _ (nodupKeys_mergeStep h1)

/-! ## Lemmas about the histogram bucket loop -/

theorem spec_bucket_count_cons {v : Rat} {cnt : Nat} {rest : List (Rat × Nat)}
    {b : Rat} :
    spec_bucket_count ((v, cnt) :: rest) b =
      (if v ≤ b then cnt else 0) + spec_bucket_count rest b := by
  by_cases h : v ≤ b <;> simp [spec_bucket_count, h]

theorem updateCounts_map (g : Rat → Nat) (v : Rat) (c : Nat) :
    ∀ {bs : List Rat}, bs.Sorted (· ≤ ·) →
      updateCounts bs (bs.map g) v c =
        bs.map (fun b => g b + if v ≤ b then c else 0) := by
  intro bs
  induction bs with
  | nil => intro _; rfl
  | cons b bs ih =>
      intro hs
      rw [List.sorted_cons] at hs
      rw [List.map_cons, List.map_cons]
      simp only [updateCounts]
      by_cases h : b < v
      · rw [if_pos h, ih hs.2, if_neg (not_le.mpr h), add_zero]
      · rw [if_neg h, if_pos (not_lt.mp h)]
        congr 1
        unfold bumpAll
        rw [List.map_map]
        apply List.map_congr_left
        intro x hx
        simp only [Function.comp_apply]
        rw [if_pos (le_trans (not_lt.mp h) (hs.1 x hx))]

theorem histFold_map {bs : List Rat} (hs : bs.Sorted (· ≤ ·)) :
    ∀ (samples : List (Rat × Nat)) (g : Rat → Nat) (s0 : Rat) (c0 : Nat),
      samples.foldl (histStep bs) (bs.map g, s0, c0) =
        (bs.map (fun b => g b + spec_bucket_count samples b),
          s0 + weightedSum samples, c0 + totalCount samples) := by
  intro samples
  induction samples with
  | nil =>
      intro g s0 c0
      simp [spec_bucket_count, weightedSum, totalCount]
  | cons vc rest ih =>
      intro g s0 c0
      obtain ⟨v, cnt⟩ := vc
      rw [List.foldl_cons]
      have hstep : histStep bs (bs.map g, s0, c0) (v, cnt) =
          (bs.map (fun b => g b + if v ≤ b then cnt else 0),
            s0 + v * (cnt : Rat), c0 + cnt) := by
        simp [histStep, updateCounts_map g v cnt hs]
      rw [hstep, ih]
      simp only [Prod.mk.injEq]
      refine ⟨?_, ?_, ?_⟩
      · apply List.map_congr_left
        intro b hb
        rw [spec_bucket_count_cons, ← add_assoc]
      · simp only [weightedSum, List.map_cons, List.sum_cons]
        ring
      · simp only [totalCount, List.map_cons, List.sum_cons]
        omega

theorem histAccum_eq {bs : List Rat} (hs : bs.Sorted (· ≤ ·))
    (samples : List (Rat × Nat)) :
    histAccum bs samples =
      (bs.map (fun b => spec_bucket_count samples b),
        weightedSum samples, totalCount samples) := by
  unfold histAccum
  have h0 : List.replicate bs.length (0 : Nat) = bs.map (fun _ => 0) :=
    (List.map_const' bs 0).symm
  rw [h0, histFold_map hs samples (fun _ => 0) 0 0]
  simp

theorem spec_bucket_count_mono (samples : List (Rat × Nat)) {b b' : Rat}
    (h : b ≤ b') :
    spec_bucket_count samples b ≤ spec_bucket_count samples b' := by
  induction samples with
  | nil => simp [spec_bucket_count]
  | cons vc rest ih =>
      obtain ⟨v, cnt⟩ := vc
      rw [spec_bucket_count_cons, spec_bucket_count_cons]
      have hd : (if v ≤ b then cnt else 0) ≤ (if v ≤ b' then cnt else 0) := by
        by_cases hv : v ≤ b
        · rw [if_pos hv, if_pos (hv.trans h)]
        · by_cases hv' : v ≤ b' <;> simp [hv, hv']
      omega

theorem counts_sorted {bs : List Rat} (hs : bs.Sorted (· ≤ ·))
    (samples : List (Rat × Nat)) :
    (bs.map (fun b => spec_bucket_count samples b)).Sorted (· ≤ ·) :=
  List.Pairwise.map _ (fun _ _ hab => spec_bucket_count_mono samples hab) hs

theorem zip_map_self {α β γ : Type} (f : α → β) (h : α × β → γ) (l : List α) :
    (l.zip (l.map f)).map h = l.map (fun a => h (a, f a)) := by
  induction l with
  | nil => rfl
  | cons a t ih => simp [List.zip_cons_cons, ih]

/-! ## Lemmas about the render loop -/

theorem render_items_filter_data :
    ∀ (ms : List Metric) (seen : List String),
      (render_items seen ms).filter isDatum = ms.map .datum := by
  intro ms
  induction ms with
  | nil => intro seen; rfl
  | cons m rest ih =>
      intro seen
      unfold render_items
      by_cases h : m.name ∈ seen
      · rw [if_pos h]
        simp [List.filter_cons, isDatum, ih]
      · rw [if_neg h]
        simp [List.filter_cons, isDatum, ih]

theorem render_items_filter_name (n : String) :
    ∀ (ms : List Metric) (seen : List String),
      (render_items seen ms).filter (hasName n) =
        if n ∈ seen then
          (ms.filter (metricHasName n)).map .datum
        else
          match ms.filter (metricHasName n) with
          | [] => []
          | m :: rest => .header m :: .datum m :: rest.map .datum := by
  intro ms
  induction ms with
  | nil =>
      intro seen
      by_cases h : n ∈ seen <;> simp [render_items, h]
  | cons m rest ih =>
      intro seen
      unfold render_items
      by_cases hseen : m.name ∈ seen
      · rw [if_pos hseen]
        by_cases hn : m.name = n
        · have hns : n ∈ seen := hn ▸ hseen
          have hpd : hasName n (RenderItem.datum m) = true := by
            simp [hasName, itemName, hn]
          rw [List.filter_cons_of_pos hpd, ih seen, if_pos hns,
            List.filter_cons_of_pos (by simp [metricHasName, hn]),
            List.map_cons, if_pos hns]
        · have hpd : ¬ hasName n (RenderItem.datum m) = true := by
            simp [hasName, itemName, hn]
          rw [List.filter_cons_of_neg hpd, ih seen,
            List.filter_cons_of_neg (by simp [metricHasName, hn])]
      · rw [if_neg hseen]
        by_cases hn : m.name = n
        · have hns : n ∉ seen := fun h => hseen (hn ▸ h)
          have hmem : n ∈ m.name :: seen := List.mem_cons.mpr (Or.inl hn.symm)
          have hph : hasName n (RenderItem.header m) = true := by
            simp [hasName, itemName, hn]
          have hpd : hasName n (RenderItem.datum m) = true := by
            simp [hasName, itemName, hn]
          rw [List.filter_cons_of_pos hph, List.filter_cons_of_pos hpd,
            ih (m.name :: seen), if_pos hmem, if_neg hns,
            List.filter_cons_of_pos (by simp [metricHasName, hn])]
        · have hne : n ≠ m.name := fun h => hn h.symm
          have hmem : (n ∈ m.name :: seen) ↔ n ∈ seen := by
            simp [List.mem_cons, hne]
          have hph : ¬ hasName n (RenderItem.header m) = true := by
            simp [hasName, itemName, hn]
          have hpd : ¬ hasName n (RenderItem.datum m) = true := by
            simp [hasName, itemName, hn]
          rw [List.filter_cons_of_neg hph, List.filter_cons_of_neg hpd,
            ih (m.name :: seen), List.filter_cons_of_neg
              (by simp [metricHasName, hn])]
          by_cases hs2 : n ∈ seen
          · rw [if_pos (hmem.mpr hs2), if_pos hs2]
          · rw [if_neg (fun h => hs2 (hmem.mp h)), if_neg hs2]

/-! ## Concrete fixtures used by witnesses and counterexamples -/

/-- Concrete absolute counter entry named a. -/
def cxA : Metric := ⟨"a", none, none, .absolute, .counter 1⟩

/-- Concrete absolute counter entry named b. -/
def cxB : Metric := ⟨"b", none, none, .absolute, .counter 2⟩

/-- Concrete absolute counter entry named c. -/
def cxC : Metric := ⟨"c", none, none, .absolute, .counter 3⟩

/-- Concrete incremental counter update targeting a. -/
def cxIncA : Metric := ⟨"a", none, none, .incremental, .counter 5⟩

/-- Concrete registry state holding a, b, c in insertion order. -/
def cxState : SinkState := ⟨[cxA, cxB, cxC], 0⟩

/-- Concrete one-sample histogram distribution metric. -/
def cxHist : Metric :=
  ⟨"r", none, none, .absolute, .distribution [3] [1] .histogram⟩

/-- Concrete histogram distribution metric matching the source unit test. -/
def cxDist : Metric :=
  ⟨"requests", none, none, .absolute, .distribution [1, 2, 3] [3, 3, 2] .histogram⟩

/-! ## Claim theorems -/

/-- Claim C9: a GET of /metrics yields status 200, the rendered exposition
content and the versioned text/plain content type; any other method or path
yields status 404 with an empty body. -/
theorem claim_C9 (method path : String) (metrics : List Metric) :
    (method = "GET" ∧ path = "/metrics" →
      handle method path metrics =
        ⟨200, render_items [] metrics, some "text/plain; version=0.0.4"⟩) ∧
    (¬ (method = "GET" ∧ path = "/metrics") →
      handle method path metrics = ⟨404, [], none⟩) := by
  constructor
  · intro h
    unfold handle
    rw [if_pos h]
  · intro h
    unfold handle
    rw [if_neg h]

/-- Witness for claim C9 at a GET of /metrics and at a POST. -/
theorem claim_C9_witness :
    handle "GET" "/metrics" [] = ⟨200, [], some "text/plain; version=0.0.4"⟩ ∧
    handle "POST" "/metrics" [] = ⟨404, [], none⟩ := by
  constructor
  · rw [(claim_C9 "GET" "/metrics" []).1 ⟨rfl, rfl⟩]
    rfl
  · exact (claim_C9 "POST" "/metrics" []).2 (by decide)

/-- Claim C10: when the wall clock reads earlier than the stored reset
timestamp, the per-request check casts the negative difference to u64 and
wraps to a huge value, so expired is true, while the merge path's signed
comparison yields false. -/
theorem claim_C10 (now lastFlush : Int) (flushPeriodSecs : Nat)
    (h1 : now < lastFlush) (h2 : lastFlush - now ≤ 2 ^ 63)
    (h3 : flushPeriodSecs < 2 ^ 63) :
    requestExpired now lastFlush flushPeriodSecs = true ∧
    mergeExpired now lastFlush flushPeriodSecs = false := by
  unfold requestExpired mergeExpired u64OfI64 i64OfU64
  rw [if_pos h3]
  have e63n : (2 : Nat) ^ 63 = 9223372036854775808 := by norm_num
  have e63 : (2 : Int) ^ 63 = 9223372036854775808 := by norm_num
  have e64 : (2 : Int) ^ 64 = 18446744073709551616 := by norm_num
  rw [e63n] at h3
  rw [e63] at h2
  have hm : (now - lastFlush) % (2 : Int) ^ 64 =
      now - lastFlush + 18446744073709551616 := by
    rw [e64]
    have ha : (0 : Int) ≤ now - lastFlush + 18446744073709551616 := by omega
    have hb : now - lastFlush + 18446744073709551616 <
        18446744073709551616 := by omega
    calc (now - lastFlush) % (18446744073709551616 : Int)
        = (now - lastFlush + 18446744073709551616 * 1) %
            (18446744073709551616 : Int) := by
          rw [Int.add_mul_emod_self_left]
      _ = (now - lastFlush + 18446744073709551616) %
            (18446744073709551616 : Int) := by ring_nf
      _ = now - lastFlush + 18446744073709551616 := Int.emod_eq_of_lt ha hb
  constructor
  · simp only [hm, decide_eq_true_eq]
    omega
  · simp only [decide_eq_false_iff_not]
    omega

/-- Witness for claim C10 at now = 0, reset timestamp 10, flush period 60. -/
theorem claim_C10_witness :
    ((0 : Int) < 10 ∧ (10 : Int) - 0 ≤ 2 ^ 63 ∧ (60 : Nat) < 2 ^ 63) ∧
    requestExpired 0 10 60 = true ∧ mergeExpired 0 10 60 = false :=
  ⟨⟨by norm_num, by norm_num, by norm_num⟩,
    claim_C10 0 10 60 (by norm_num) (by norm_num) (by norm_num)⟩

/-- Claim C4: a Set-valued absolute entry renders one data line whose value
is 0 when the expired flag is set and the member count otherwise, and its
header type tag is gauge. -/
theorem claim_C4 (namespace_ : Option String) (buckets quantiles : List Rat)
    (expired : Bool) (metric : Metric) (s : Finset String)
    (hk : metric.kind = .absolute) (hv : metric.value = .set s) :
    encode_metric_datum namespace_ buckets quantiles expired metric =
      [⟨encode_namespace namespace_ metric.name, metric.tags, none,
        ((if expired then 0 else s.card : Nat) : Rat)⟩] ∧
    metric_type metric.value = "gauge" ∧
    encode_metric_header namespace_ metric =
      "# HELP " ++ encode_namespace namespace_ metric.name ++ " "
        ++ metric.name ++ "\n" ++ "# TYPE "
        ++ encode_namespace namespace_ metric.name ++ " gauge\n" := by
  refine ⟨?_, ?_, ?_⟩
  · simp [encode_metric_datum, hk, hv]
  · rw [hv]
    rfl
  · have hg : (" gauge\n" : String) = " " ++ "gauge" ++ "\n" := rfl
    simp [encode_metric_header, hv, metric_type, hg, String.append_assoc]

/-- Witness for claim C4 at a one-member set, both expired and not. -/
theorem claim_C4_witness :
    (⟨"users", none, none, .absolute, .set {"foo"}⟩ : Metric).kind
        = .absolute ∧
    encode_metric_datum none [] [] false
        ⟨"users", none, none, .absolute, .set {"foo"}⟩ =
      [⟨"users", none, none, 1⟩] ∧
    encode_metric_datum none [] [] true
        ⟨"users", none, none, .absolute, .set {"foo"}⟩ =
      [⟨"users", none, none, 0⟩] := by
  refine ⟨rfl, ?_, ?_⟩
  · rw [(claim_C4 none [] [] false _ {"foo"} rfl rfl).1]
    decide
  · rw [(claim_C4 none [] [] true _ {"foo"} rfl rfl).1]
    decide

/-- Claim C8: rendering is total — a non-absolute entry contributes no
lines, and a Summary-mode distribution whose statistic calculator yields no
result renders exactly a zero _sum line and a zero _count line. -/
theorem claim_C8 (namespace_ : Option String) (buckets quantiles : List Rat)
    (expired : Bool) (metric : Metric) (values : List Rat)
    (sample_rates : List Nat) :
    (metric.kind ≠ .absolute →
      encode_metric_datum namespace_ buckets quantiles expired metric = []) ∧
    (metric.kind = .absolute →
      metric.value = .distribution values sample_rates .summary →
      DistributionStatistic.new values sample_rates quantiles = none →
      encode_metric_datum namespace_ buckets quantiles expired metric =
        [⟨encode_namespace namespace_ metric.name ++ "_sum", metric.tags,
            none, 0⟩,
         ⟨encode_namespace namespace_ metric.name ++ "_count", metric.tags,
            none, 0⟩]) := by
  constructor
  · intro h
    simp [encode_metric_datum, h]
  · intro hk hv hn
    simp [encode_metric_datum, hk, hv, hn]

/-- Witness for claim C8 at an incremental counter and an empty summary
distribution. -/
theorem claim_C8_witness :
    (⟨"x", none, none, .incremental, .counter 1⟩ : Metric).kind ≠ .absolute ∧
    encode_metric_datum none [] [] false
      ⟨"x", none, none, .incremental, .counter 1⟩ = [] ∧
    DistributionStatistic.new [] [] [] = none ∧
    encode_metric_datum none [] [] false
        ⟨"d", none, none, .absolute, .distribution [] [] .summary⟩ =
      [⟨"d_sum", none, none, 0⟩, ⟨"d_count", none, none, 0⟩] :=
  ⟨by decide,
    (claim_C8 none [] [] false ⟨"x", none, none, .incremental, .counter 1⟩
      [] []).1 (by decide),
    by decide,
    (claim_C8 none [] [] false
      ⟨"d", none, none, .absolute, .distribution [] [] .summary⟩ [] []).2
      rfl rfl (by decide)⟩

/-- Claim C6 counterexample: with tag names a and a0, one a proper prefix of
the other, the parts are sorted as whole name="value" strings and the pair
a0="y" precedes a="x", so the rendered list is not sorted by tag name. -/
theorem claim_C6_counterexample :
    encode_tags (some [("a", "x"), ("a0", "y")]) =
      "\x7ba0=\"y\",a=\"x\"\x7d" ∧
    encode_tags_by_name (some [("a", "x"), ("a0", "y")]) =
      "\x7ba=\"x\",a0=\"y\"\x7d" ∧
    encode_tags (some [("a", "x"), ("a0", "y")]) ≠
      encode_tags_by_name (some [("a", "x"), ("a0", "y")]) := by
  refine ⟨?_, ?_, ?_⟩ <;> decide

/-- Claim C6 amended: tags render as a brace-delimited comma-separated list
of name="value" pairs sorted lexicographically as whole rendered strings
(which coincides with sorting by tag name except when a name is a proper
prefix of another); a missing tag set renders as no braces; a synthetic pair
is merged into the same sorted list. -/
theorem claim_C6_amended (tags : List (String × String)) (tag value : String) :
    encode_tags none = "" ∧
    (∃ parts : List String,
      encode_tags (some tags) =
        "\x7b" ++ String.intercalate "," parts ++ "\x7d" ∧
      parts.Perm (tags.map (fun p => fmtPair p.1 p.2)) ∧
      parts.Sorted strLe) ∧
    (∃ parts : List String,
      encode_tags_with_extra (some tags) tag value =
        "\x7b" ++ String.intercalate "," parts ++ "\x7d" ∧
      parts.Perm (tags.map (fun p => fmtPair p.1 p.2) ++ [fmtPair tag value]) ∧
      parts.Sorted strLe) ∧
    encode_tags_with_extra none tag value =
      "\x7b" ++ fmtPair tag value ++ "\x7d" := by
  refine ⟨rfl, ?_, ?_, ?_⟩
  · exact ⟨_, rfl, List.perm_insertionSort _ _, List.sorted_insertionSort _ _⟩
  · exact ⟨_, rfl, List.perm_insertionSort _ _, List.sorted_insertionSort _ _⟩
  · rfl

/-- Claim C7: within one render pass exactly one header block is emitted
per distinct metric name, placed before that name's first data frame, while
a data frame is emitted for every entry; the handler starts every request
from an empty processed-headers set, so the de-duplication never carries
over between renders. -/
theorem claim_C7 (metrics : List Metric) (n : String) :
    (handle "GET" "/metrics" metrics).body = render_items [] metrics ∧
    (render_items [] metrics).filter isDatum = metrics.map .datum ∧
    (render_items [] metrics).filter (hasName n) =
      (match metrics.filter (metricHasName n) with
        | [] => []
        | m :: rest => .header m :: .datum m :: rest.map .datum) := by
  refine ⟨by simp [handle], render_items_filter_data metrics [], ?_⟩
  have h := render_items_filter_name n metrics []
  rw [if_neg (List.not_mem_nil n)] at h
  exact h

/-- Concrete absolute update replacing entry b. -/
def cxB9 : Metric := ⟨"b", none, none, .absolute, .counter 9⟩

/-- Concrete stored Set entry. -/
def cxSetEntry : Metric := ⟨"s", none, none, .absolute, .set {"x"}⟩

/-- Concrete registry state holding one Set entry, reset timestamp 0. -/
def cxSetState : SinkState := ⟨[cxSetEntry], 0⟩

/-- Concrete incremental Set update targeting s. -/
def cxIncSet : Metric := ⟨"s", none, none, .incremental, .set {"y"}⟩

/-- Concrete first absolute write to a. -/
def cxAbs1 : Metric := ⟨"a", none, none, .absolute, .counter 10⟩

/-- Concrete second absolute write to a. -/
def cxAbs2 : Metric := ⟨"a", none, none, .absolute, .counter 20⟩

/-- Concrete absolute write to b. -/
def cxAbsB : Metric := ⟨"b", none, none, .absolute, .counter 7⟩

/-- Claim C1 counterexample: in the registry a, b, c, an Incremental merge
targeting a swap-removes it, so the untargeted entry c moves from position 2
to position 0 instead of keeping its iteration position. -/
theorem claim_C1_counterexample :
    cxState.metrics.map Metric.name = ["a", "b", "c"] ∧
    (mergeStep 60 0 cxState cxIncA).metrics.map Metric.name =
      ["c", "b", "a"] ∧
    (mergeStep 60 0 cxState cxIncA).metrics[2]?.map Metric.name ≠
      some "c" := by
  refine ⟨rfl, by decide, by decide⟩

/-- Claim C1 amended: an Absolute merge on an existing identity updates the
entry in place at its position; an Incremental merge on an existing identity
swap-removes the entry — entries other than the previously last one keep
their positions, the previously last entry moves into the removed slot —
and reinserts the folded entry at the end; a merge on an absent identity
appends, leaving all existing positions unchanged. -/
theorem claim_C1_amended (flushPeriodSecs : Nat) (now : Int) (st : SinkState)
    (item : Metric) (hnd : NodupKeys st.metrics) :
    (∀ i, item.kind = .absolute → find_index item st.metrics = some i →
      (mergeStep flushPeriodSecs now st item).metrics =
        st.metrics.set i item) ∧
    (∀ e rest i, item.kind = .incremental →
      takeEntry st.metrics item.toAbsolute = some (e, rest) →
      find_index item.toAbsolute st.metrics = some i →
      ∃ folded : Metric, folded.key = item.key ∧
        (mergeStep flushPeriodSecs now st item).metrics = rest ++ [folded] ∧
        (∀ j, j + 1 < st.metrics.length → j ≠ i →
          rest[j]? = st.metrics[j]?) ∧
        (i + 1 < st.metrics.length →
          rest[i]? = st.metrics[st.metrics.length - 1]?)) ∧
    (item.kind = .incremental →
      find_index item.toAbsolute st.metrics = none →
      (mergeStep flushPeriodSecs now st item).metrics =
        st.metrics ++ [item.toAbsolute]) ∧
    (item.kind = .absolute → find_index item st.metrics = none →
      (mergeStep flushPeriodSecs now st item).metrics =
        st.metrics ++ [item]) := by
  refine ⟨?_, ?_, ?_, ?_⟩
  · intro i hk hfi
    rw [mergeStep_absolute hk]
    show replaceEntry st.metrics item = st.metrics.set i item
    unfold replaceEntry
    rw [hfi]
  · intro e rest i hk htake hfi
    have hspec := find_index_spec hfi
    obtain ⟨hi, e', he', hee'⟩ := hspec
    have hrest : rest = swapRemoveAt st.metrics i := by
      unfold takeEntry at htake
      rw [hfi] at htake
      simp only [he', Option.some.injEq, Prod.mk.injEq] at htake
      exact htake.2.symm
    refine ⟨(if item.value.isSet &&
        mergeExpired now st.lastFlushTimestamp flushPeriodSecs
      then e.reset else e).add item, ?_, ?_, ?_, ?_⟩
    · rw [key_folded, takeEntry_some_key htake, key_toAbsolute]
    · exact mergeStep_incremental_append hnd hk htake
    · intro j hj hji
      rw [hrest, swapRemoveAt_getElem? hi hj, if_neg hji]
    · intro hilt
      rw [hrest, swapRemoveAt_getElem? hi hilt, if_pos rfl]
  · intro hk hfi
    rw [mergeStep_incremental_none hk (takeEntry_eq_none_iff.mpr hfi)]
    exact insertEntry_of_no_match (find_index_eq_none_iff.mp hfi)
  · intro hk hfi
    rw [mergeStep_absolute hk]
    show replaceEntry st.metrics item = st.metrics ++ [item]
    unfold replaceEntry
    rw [hfi]

/-- Witness for claim C1 at the in-place Absolute replacement of entry b. -/
theorem claim_C1_witness :
    NodupKeys cxState.metrics ∧
    (mergeStep 60 0 cxState cxB9).metrics = cxState.metrics.set 1 cxB9 :=
  ⟨by decide,
    (claim_C1_amended 60 0 cxState cxB9 (by decide)).1 1 rfl (by decide)⟩

/-- Claim C2: after any update sequence whose last write to an identity is
an Absolute update, the snapshot lookup of that identity yields exactly that
update, regardless of any earlier history. -/
theorem claim_C2 (flushPeriodSecs : Nat) (st : SinkState)
    (hnd : NodupKeys st.metrics) (us1 us2 : List (Int × Metric)) (now : Int)
    (item : Metric) (hkind : item.kind = .absolute)
    (h2 : ∀ u ∈ us2, (u.2 : Metric).key ≠ item.key) :
    findEntry item.key
      (applyUpdates flushPeriodSecs st
        (us1 ++ (now, item) :: us2)).metrics = some item := by
  rw [applyUpdates_append, applyUpdates_cons]
  have hnd1 : NodupKeys (applyUpdates flushPeriodSecs st us1).metrics :=
    nodupKeys_applyUpdates us1 st hnd
  have hnd2 : NodupKeys (mergeStep flushPeriodSecs now
      (applyUpdates flushPeriodSecs st us1) item).metrics :=
    nodupKeys_mergeStep hnd1
  obtain ⟨_, hfind⟩ := applyUpdates_invariant us2
    (mergeStep flushPeriodSecs now (applyUpdates flushPeriodSecs st us1) item)
    hnd2 h2
  rw [hfind]
  exact findEntry_mergeStep_absolute hkind

/-- Witness for claim C2 at two absolute writes to a followed by a write to
b. -/
theorem claim_C2_witness :
    NodupKeys (⟨[], 0⟩ : SinkState).metrics ∧
    findEntry cxAbs2.key
      (applyUpdates 60 ⟨[], 0⟩
        ([(0, cxAbs1)] ++ (1, cxAbs2) :: [(2, cxAbsB)])).metrics =
      some cxAbs2 :=
  ⟨by decide,
    claim_C2 60 ⟨[], 0⟩ (by decide) [(0, cxAbs1)] [(2, cxAbsB)] 1 cxAbs2
      rfl (by decide)⟩

/-- Claim C5: a merge writes the global reset timestamp exactly when the
update is Incremental, Set-typed, matches an existing entry and the elapsed
time exceeds the flush period; in that case the existing set is cleared
before the fold, and otherwise the fold keeps the existing members. -/
theorem claim_C5 (flushPeriodSecs : Nat) (hf : flushPeriodSecs < 2 ^ 63)
    (now : Int) (st : SinkState) (item : Metric) :
    ((mergeStep flushPeriodSecs now st item).lastFlushTimestamp =
      if item.kind = .incremental ∧ item.value.isSet = true ∧
          (takeEntry st.metrics item.toAbsolute).isSome = true ∧
          now - st.lastFlushTimestamp > (flushPeriodSecs : Int)
      then now else st.lastFlushTimestamp) ∧
    (∀ e rest, item.kind = .incremental →
      takeEntry st.metrics item.toAbsolute = some (e, rest) →
      item.value.isSet = true →
      now - st.lastFlushTimestamp > (flushPeriodSecs : Int) →
      (mergeStep flushPeriodSecs now st item).metrics =
        insertEntry rest (e.reset.add item)) ∧
    (∀ e rest, item.kind = .incremental →
      takeEntry st.metrics item.toAbsolute = some (e, rest) →
      (item.value.isSet = false ∨
        ¬ now - st.lastFlushTimestamp > (flushPeriodSecs : Int)) →
      (mergeStep flushPeriodSecs now st item).metrics =
        insertEntry rest (e.add item)) := by
  have hexp : mergeExpired now st.lastFlushTimestamp flushPeriodSecs =
      decide (now - st.lastFlushTimestamp > (flushPeriodSecs : Int)) := by
    unfold mergeExpired i64OfU64
    rw [if_pos hf]
  refine ⟨?_, ?_, ?_⟩
  · cases hk : item.kind with
    | absolute =>
        rw [mergeStep_absolute hk]
        rw [if_neg (by simp)]
    | incremental =>
        cases ht : takeEntry st.metrics item.toAbsolute with
        | none =>
            rw [mergeStep_incremental_none hk ht]
            rw [if_neg (by simp)]
        | some pr =>
            obtain ⟨e, rest⟩ := pr
            rw [mergeStep_incremental_some hk ht]
            by_cases hset : item.value.isSet = true
            · by_cases hcmp :
                  now - st.lastFlushTimestamp > (flushPeriodSecs : Int)
              · simp [hexp, hset, hcmp]
              · simp [hexp, hcmp]
            · have hset' : item.value.isSet = false := by
                revert hset
                cases item.value.isSet <;> simp
              simp [hset']
  · intro e rest hk ht hset hcmp
    rw [mergeStep_incremental_some hk ht]
    have hb : (item.value.isSet &&
        mergeExpired now st.lastFlushTimestamp flushPeriodSecs) = true := by
      simp [hexp, hset, hcmp]
    simp [hb]
  · intro e rest hk ht hdis
    rw [mergeStep_incremental_some hk ht]
    have hb : (item.value.isSet &&
        mergeExpired now st.lastFlushTimestamp flushPeriodSecs) = false := by
      rcases hdis with hdis | hdis
      · simp [hdis]
      · simp [hexp, hdis]
    simp [hb]

/-- Witness for claim C5 at an expiring incremental Set merge. -/
theorem claim_C5_witness :
    ((60 : Nat) < 2 ^ 63) ∧
    (mergeStep 60 100 cxSetState cxIncSet).lastFlushTimestamp = 100 := by
  refine ⟨by norm_num, ?_⟩
  rw [(claim_C5 60 (by norm_num) 100 cxSetState cxIncSet).1]
  decide

/-- Claim C3 counterexample: with the unsorted bound list [5, 1] and the
single sample 3 of rate 1, the bucket line for bound 1 reports 1 although no
sample value is less than or equal to 1, because the loop only skips the
leading bounds below the sample and then increments every later counter. -/
theorem claim_C3_counterexample :
    (encode_metric_datum none [5, 1] [] false cxHist)[1]? =
      some ⟨"r_bucket", none, some ("le", .num 1), 1⟩ ∧
    spec_bucket_count [((3 : Rat), 1)] 1 = 0 ∧ (1 : Rat) ≠ 0 := by
  refine ⟨by decide, by decide, by norm_num⟩

/-- Claim C3 amended: when the configured bucket bounds are sorted in
nondecreasing order, the histogram branch emits one le bucket line per bound
whose count is the weighted number of samples at most that bound, then the
le=+Inf line carrying the total weighted count, then the _sum and _count
lines; the per-bound counts are nondecreasing. -/
theorem claim_C3_amended (namespace_ : Option String)
    (buckets quantiles : List Rat) (expired : Bool) (metric : Metric)
    (values : List Rat) (sample_rates : List Nat)
    (hk : metric.kind = .absolute)
    (hv : metric.value = .distribution values sample_rates .histogram)
    (hs : buckets.Sorted (· ≤ ·)) :
    encode_metric_datum namespace_ buckets quantiles expired metric =
      buckets.map (fun b =>
        ⟨encode_namespace namespace_ metric.name ++ "_bucket", metric.tags,
          some ("le", .num b),
          (spec_bucket_count (values.zip sample_rates) b : Rat)⟩)
      ++ [⟨encode_namespace namespace_ metric.name ++ "_bucket", metric.tags,
            some ("le", .inf),
            (totalCount (values.zip sample_rates) : Rat)⟩,
          ⟨encode_namespace namespace_ metric.name ++ "_sum", metric.tags,
            none, weightedSum (values.zip sample_rates)⟩,
          ⟨encode_namespace namespace_ metric.name ++ "_count", metric.tags,
            none, (totalCount (values.zip sample_rates) : Rat)⟩] ∧
    (buckets.map
      (fun b => spec_bucket_count (values.zip sample_rates) b)).Sorted
        (· ≤ ·) := by
  constructor
  · simp only [encode_metric_datum, hk, hv]
    rw [histAccum_eq hs]
    simp [zip_map_self]
  · exact counts_sorted hs _

/-- Witness for claim C3 at the source unit test distribution with sorted
bounds 0, 2, 5. -/
theorem claim_C3_witness :
    ([(0 : Rat), 2, 5].Sorted (· ≤ ·)) ∧
    encode_metric_datum none [0, 2, 5] [] false cxDist =
      [⟨"requests_bucket", none, some ("le", .num 0), 0⟩,
       ⟨"requests_bucket", none, some ("le", .num 2), 6⟩,
       ⟨"requests_bucket", none, some ("le", .num 5), 8⟩,
       ⟨"requests_bucket", none, some ("le", .inf), 8⟩,
       ⟨"requests_sum", none, none, 15⟩,
       ⟨"requests_count", none, none, 8⟩] := by
  refine ⟨by decide, ?_⟩
  rw [(claim_C3_amended none [0, 2, 5] [] false cxDist [1, 2, 3] [3, 3, 2]
    rfl rfl (by decide)).1]
  have hws : weightedSum ([(1 : Rat), 2, 3].zip [3, 3, 2]) = 15 := by
    norm_num [weightedSum]
  rw [hws]
  decide

end PrometheusSink
